import Mathlib

/-!
Shallow embedding of `pylgrim/ESPPRC.py` (elementary shortest path with
resource constraints): the preprocessing step `preprocess_ESPPRC`, the
general label setting algorithm `GLSA`, the state space augmenting loop
`GSSA` and the dominance test `_is_dominated`.

Modelling conventions:
* node identifiers are natural numbers; costs and resource values are
  integers (`ℤ`): the Python code holds them in floats but only ever
  applies `+`, `<`, `<=`, `==` and `min`, so over integral inputs — as in
  every concrete instance below — `ℤ` models the computation exactly, and
  the general theorems use only ordered-additive reasoning;
* Python dicts keyed by nodes become association lists (`lookupA`,
  `updateA`); the parallel dicts `paths[v]` / `labels[v]` of the source,
  which share positions, are fused into one list of (label, path) pairs at
  the same positions;
* the Python set `L` of pending (node, label index) pairs becomes a
  duplicate-free list; iterating over the set becomes iterating over the
  list in order (Python set iteration order is arbitrary, the list fixes
  one such order);
* Python runtime failures are explicit: `PyErr` has one constructor per
  failure the source can hit (`labels[target]` raising KeyError,
  `set.append` raising AttributeError, reading the unbound `best_path`,
  `quit()` on an edge into the source), plus `outOfFuel` standing for a
  non-terminated while loop, since loops are modelled with fuel.
-/

abbrev Node := Nat

/-- A label `(cost, resources)` as stored in `labels[v]` in the source. -/
abbrev Label := ℤ × List ℤ

/-- The least-resource table `res_min`: `res_min[r][u]` is a dict from
target node to least consumption of resource `r`; missing inner entries
are `none` (the source reads them with `.get(·, 0.0)`). -/
abbrev RMin := Nat → Node → Node → Option ℤ

/-- `res_min[res][v].get(t, 0.0)` of the source. -/
def rminGet (rmin : RMin) (r : Nat) (v t : Node) : ℤ :=
  (rmin r v t).getD 0

/-- Failure modes of the Python source. -/
inductive PyErr where
  /-- `labels[target]` with no entry for `target` (ESPPRC.py line 248). -/
  | keyError
  /-- `reachable_nodes.append(...)` on a `set` (ESPPRC.py lines 58, 64). -/
  | attributeError
  /-- `best_path` read while unbound (empty label list at `target`). -/
  | nameError
  /-- `quit()` after `ERROR: source cannot be a child` (line 154). -/
  | sourceIsChild
  /-- fuel exhausted: the modelled while loop did not terminate yet. -/
  | outOfFuel
  deriving DecidableEq

/-- Equality of `Except` results is decidable (needed to evaluate the
algorithms on concrete instances). -/
instance exceptDecEq {ε α : Type} [DecidableEq ε] [DecidableEq α] :
    DecidableEq (Except ε α)
  | .error e, .error e' =>
    if h : e = e' then isTrue (by rw [h])
    else isFalse (fun hh => h (Except.error.inj hh))
  | .error _, .ok _ => isFalse (fun hh => Except.noConfusion hh)
  | .ok _, .error _ => isFalse (fun hh => Except.noConfusion hh)
  | .ok a, .ok b =>
    if h : a = b then isTrue (by rw [h])
    else isFalse (fun hh => h (Except.ok.inj hh))

/-- Association-list lookup, modelling Python `dict` access. -/
def lookupA {α : Type} : List (Node × α) → Node → Option α
  | [], _ => none
  | p :: ps, k => if p.1 = k then some p.2 else lookupA ps k

/-- Association-list update, modelling Python `dict` assignment (keys are
unique, so replacing the first occurrence is replacing the occurrence). -/
def updateA {α : Type} : List (Node × α) → Node → α → List (Node × α)
  | [], k, v => [(k, v)]
  | p :: ps, k, v => if p.1 = k then (k, v) :: ps else p :: updateA ps k v

/-- Set-like insertion for the pending set `L` (`L.add(...)`). -/
def addL (L : List (Node × Nat)) (e : Node × Nat) : List (Node × Nat) :=
  if e ∈ L then L else L ++ [e]

/-- Componentwise vector addition (numpy `+` on equal-length arrays). -/
def zipAdd (x y : List ℤ) : List ℤ :=
  List.zipWith (fun a b => a + b) x y

/-- The node-resource part of `e_loc` (ESPPRC.py lines 157-160): a vector
of length `|S|` that is `1` at index `S.index(v)` when `v ∈ S` and `0`
elsewhere (`List.indexOf` returns `S.length` when `v ∉ S`, giving all
zeros, exactly like the guarded Python assignment). -/
def sIndicator (S : List Node) (v : Node) : List ℤ :=
  (List.range S.length).map (fun i => if List.indexOf v S = i then 1 else 0)

/-- Elementwise equality test `all(a == b)` on numpy vectors. -/
def eqVec (x y : List ℤ) : Bool :=
  (x.zip y).all (fun p => decide (p.1 = p.2))

/-- Elementwise strict comparison `any(a < b)` on numpy vectors. -/
def anyLt (x y : List ℤ) : Bool :=
  (x.zip y).any (fun p => decide (p.1 < p.2))

/-- `_is_dominated(a, b)` (ESPPRC.py lines 289-299): `a` is dominated by
`b` iff they are not identical in cost and whole resource vector, `a`'s
cost is not strictly better, and no resource dimension of `a` is strictly
better. -/
def is_dominated (a b : Label) : Bool :=
  if decide (a.1 = b.1) && eqVec a.2 b.2 then false
  else !(decide (a.1 < b.1)) && !(anyLt a.2 b.2)

/-- The feasibility pruning test (ESPPRC.py lines 164-169): the candidate
is kept only if for every physical resource `r`,
`v_label[1][r] + res_min[r][v].get(target, 0.0) <= max_res[r]`. -/
def feasCheck (n_res : Nat) (target : Node) (max_res : List ℤ) (rmin : RMin)
    (v : Node) (l : List ℤ) : Bool :=
  (List.range n_res).all
    (fun r => decide (l.getD r 0 + rminGet rmin r v target ≤ max_res.getD r 0))

/-- The node-resource pruning test (ESPPRC.py lines 171-176): the
candidate is kept only if every synthetic dimension is at most `1`. -/
def nodeCheck (n_res : Nat) (S : List Node) (l : List ℤ) : Bool :=
  (List.range S.length).all (fun r => decide (l.getD (n_res + r) 0 ≤ 1))

/-- The body of the strong dominance loop for one `n ∈ S` (ESPPRC.py
lines 201-206): if some physical resource plus `res_min[res][n].get(n,
0.0)` exceeds the budget and the synthetic dimension `S.index(n)` is
still `0`, that dimension is set to `1`. -/
def tightenStep (n_res : Nat) (S : List Node) (rmin : RMin)
    (max_res : List ℤ) (acc : List ℤ) (n : Node) : List ℤ :=
  if ((List.range n_res).any
        (fun r => decide (acc.getD r 0 + rminGet rmin r n n > max_res.getD r 0)))
      && decide (acc.getD (n_res + List.indexOf n S) 0 = 0)
  then acc.set (n_res + List.indexOf n S) 1
  else acc

/-- Strong dominance tightening (ESPPRC.py lines 199-206): the loop
`for n in S` around `tightenStep`; note the bound consulted is
`res_min[res][n][n]`, from `n` to itself. -/
def strongTighten (n_res : Nat) (S : List Node) (rmin : RMin)
    (max_res : List ℤ) (l : List ℤ) : List ℤ :=
  S.foldl (tightenStep n_res S rmin max_res) l

/-- Modelled from the spec: the strong dominance tightening as the spec
words it (claim C5), consulting the bound `bound_table[*][v][n]` from the
candidate's node `v` to `n` instead of the source's `res_min[res][n][n]`.
Used only to compare against `strongTighten`. -/
def strongTightenSpec (n_res : Nat) (S : List Node) (rmin : RMin)
    (max_res : List ℤ) (v : Node) (l : List ℤ) : List ℤ :=
  S.foldl
    (fun acc n =>
      if ((List.range n_res).any
            (fun r => decide (acc.getD r 0 + rminGet rmin r v n > max_res.getD r 0)))
          && decide (acc.getD (n_res + List.indexOf n S) 0 = 0)
      then acc.set (n_res + List.indexOf n S) 1
      else acc)
    l

/-- The removal loop for existing dominated labels (ESPPRC.py lines
208-230): walk the (label, path) list at node `v` with current position
`i`; a label dominated by the new label `vl` is dropped, its pending entry
`(v, i)` is removed from `L` and all pending entries `(v, j)` with `j > i`
are renumbered to `(v, j - 1)`. -/
def removeDomAux (vl : Label) (v : Node) :
    List (Label × List Node) → Nat → List (Node × Nat) →
    List (Label × List Node) × List (Node × Nat)
  | [], _, L => ([], L)
  | x :: rest, i, L =>
    if is_dominated x.1 vl then
      let L' := (L.erase (v, i)).map
        (fun e => if e.1 = v ∧ i < e.2 then (e.1, e.2 - 1) else e)
      removeDomAux vl v rest i L'
    else
      let r := removeDomAux vl v rest (i + 1) L
      (x :: r.1, r.2)

/-- Edge data: `weight` and `res_cost` attributes of an edge. -/
structure EdgeData where
  weight : ℤ
  res_cost : List ℤ
  deriving DecidableEq

/-- A directed graph as consumed by the algorithms: `n_res` is the graph
attribute of the same name, `edges` lists `(u, v, data)` triples in
insertion order. -/
structure Graph where
  n_res : Nat
  nodes : List Node
  edges : List (Node × Node × EdgeData)
  deriving DecidableEq

/-- `G.succ[u]` as an ordered list of `(v, edge data)` pairs. -/
def Graph.succs (G : Graph) (u : Node) : List (Node × EdgeData) :=
  G.edges.filterMap (fun e => if e.1 = u then some (e.2.1, e.2.2) else none)

/-- `G[u][v]` (first stored edge from `u` to `v`, if any). -/
def findEdge (G : Graph) (u v : Node) : Option EdgeData :=
  (G.edges.find? (fun e => decide (e.1 = u) && decide (e.2.1 = v))).map
    (fun e => e.2.2)

/-- The working state of one `GLSA` invocation: the fused
`labels[v]`/`paths[v]` dicts and the pending set `L`. -/
structure GState where
  entries : List (Node × List (Label × List Node))
  L : List (Node × Nat)
  deriving DecidableEq

/-- `labels.get(v, [])` together with the parallel paths. -/
def labelsOf (st : GState) (v : Node) : List (Label × List Node) :=
  (lookupA st.entries v).getD []

/-- `labels[label[0]][label[1]][1][res]` read by the lexicographic
selection (defaults are never used on the indices the algorithm stores). -/
def labelRes (st : GState) (e : Node × Nat) (res : Nat) : ℤ :=
  ((labelsOf st e.1).getD e.2 ((0, []), [])).1.2.getD res 0

/-- One pass of the selection filter (ESPPRC.py lines 120-128): keep a
candidate whenever its value is `<=` the running minimum seen so far
(which starts at `inf`, carried here as `none`), updating the minimum. -/
def prefixMins (f : Node × Nat → ℤ) :
    List (Node × Nat) → Option ℤ → List (Node × Nat)
  | [], _ => []
  | x :: xs, none => x :: prefixMins f xs (some (f x))
  | x :: xs, some m =>
    if f x ≤ m then x :: prefixMins f xs (some (f x))
    else prefixMins f xs (some m)

/-- The dimension loop of the lexicographic selection (ESPPRC.py lines
119-138): filter the candidates dimension by dimension; stop early when a
single candidate remains, otherwise after the last dimension return the
first remaining candidate. -/
def selectGo (f : Node × Nat → Nat → ℤ) :
    List (Node × Nat) → Nat → Nat → Node × Nat
  | cands, _, 0 => cands.headD (0, 0)
  | cands, res, fuel + 1 =>
    let survivors := prefixMins (fun e => f e res) cands none
    if survivors.length = 1 then survivors.headD (0, 0)
    else selectGo f survivors (res + 1) fuel

/-- `u_label` as selected from `L` (ESPPRC.py lines 118-138); `dims` is
`n_res + len(S)` (always at least 1, since `n_res` is positive: with
`dims = 0` the Python `for` body would never run and `u_label` would be
read unbound, while this model returns the head of `L`). -/
def selectLML (f : Node × Nat → Nat → ℤ) (dims : Nat)
    (L : List (Node × Nat)) : Node × Nat :=
  selectGo f L 0 dims

/-- Relaxation of one edge `u -> v` (ESPPRC.py lines 145-241) from the
selected label `uLab` with path `uPath`. An edge into the source hits
`quit()`. Otherwise the candidate label is built, pruned by the
feasibility and node-resource checks, pruned by dominance against the
labels already at `v`, tightened, and inserted after removing the labels
it dominates. -/
def relaxEdge (n_res : Nat) (S : List Node) (source target : Node)
    (max_res : List ℤ) (rmin : RMin) (uLab : Label) (uPath : List Node)
    (v : Node) (ed : EdgeData) (st : GState) : Except PyErr GState :=
  if v = source then .error .sourceIsChild
  else
    let vLab : Label :=
      (uLab.1 + ed.weight, zipAdd uLab.2 (ed.res_cost ++ sIndicator S v))
    if feasCheck n_res target max_res rmin v vLab.2 && nodeCheck n_res S vLab.2 then
      if (labelsOf st v).any (fun b => is_dominated vLab b.1) then .ok st
      else
        let vLab' : Label := (vLab.1, strongTighten n_res S rmin max_res vLab.2)
        let rem := removeDomAux vLab' v (labelsOf st v) 0 st.L
        let newList := rem.1 ++ [(vLab', uPath ++ [v])]
        .ok ⟨updateA st.entries v newList, addL rem.2 (v, newList.length - 1)⟩
    else .ok st

/-- The `for v, e in G.succ[u].items()` loop around `relaxEdge`; `quit()`
aborts the whole run. -/
def relaxAll (n_res : Nat) (S : List Node) (source target : Node)
    (max_res : List ℤ) (rmin : RMin) (uLab : Label) (uPath : List Node) :
    List (Node × EdgeData) → GState → Except PyErr GState
  | [], st => .ok st
  | (v, ed) :: rest, st =>
    match relaxEdge n_res S source target max_res rmin uLab uPath v ed st with
    | .error e => .error e
    | .ok st' => relaxAll n_res S source target max_res rmin uLab uPath rest st'

/-- One iteration of the `while L` loop of `GLSA` (ESPPRC.py lines
115-241): select the label, remove it from `L`, relax all outgoing
edges. -/
def glsaStep (G : Graph) (S : List Node) (source target : Node)
    (max_res : List ℤ) (rmin : RMin) (st : GState) : Except PyErr GState :=
  let ul := selectLML (labelRes st) (G.n_res + S.length) st.L
  let x := (labelsOf st ul.1).getD ul.2 ((0, []), [])
  relaxAll G.n_res S source target max_res rmin x.1 x.2 (G.succs ul.1)
    ⟨st.entries, st.L.erase ul⟩

/-- The fuel-indexed `while L` loop of `GLSA`. -/
def glsaLoop (G : Graph) (S : List Node) (source target : Node)
    (max_res : List ℤ) (rmin : RMin) : Nat → GState → Except PyErr GState
  | 0, _ => .error .outOfFuel
  | fuel + 1, st =>
    if st.L = [] then .ok st
    else
      match glsaStep G S source target max_res rmin st with
      | .error e => .error e
      | .ok st' => glsaLoop G S source target max_res rmin fuel st'

/-- The final scan over `labels[target]` (ESPPRC.py lines 247-252):
strict-improvement fold starting from `least_cost = inf`, so the first
entry always becomes the current best and ties keep the earlier entry. -/
def bestAtTarget : List (Label × List Node) → Option (Label × List Node)
  | [] => none
  | x :: xs => some (xs.foldl (fun acc y => if y.1.1 < acc.1.1 then y else acc) x)

/-- The initial `GLSA` state (ESPPRC.py lines 101-111): one zero label at
`source` with path `[source]`, and `L = {(source, 0)}`. -/
def initState (G : Graph) (S : List Node) (source : Node) : GState :=
  ⟨[(source, [((0, List.replicate (G.n_res + S.length) 0), [source])])],
    [(source, 0)]⟩

/-- `GLSA(G, S, source, target, max_res, res_min)` (ESPPRC.py lines
97-253), returning `(best_path, best_label)`. Reading `labels[target]`
with no entry raises KeyError; an empty entry would leave `best_path`
unbound. -/
def GLSA (G : Graph) (S : List Node) (source target : Node)
    (max_res : List ℤ) (rmin : RMin) (fuel : Nat) :
    Except PyErr (List Node × Label) :=
  match glsaLoop G S source target max_res rmin fuel (initState G S source) with
  | .error e => .error e
  | .ok st =>
    match lookupA st.entries target with
    | none => .error .keyError
    | some ls =>
      match bestAtTarget ls with
      | none => .error .nameError
      | some x => .ok (x.2, x.1)

/-- Modelled from the spec: `path_tools.count_elems` is not part of the
given sources; per the spec's augmentation loop it counts node
multiplicities in the returned path. `pathMaxMult` is
`max(path_elems.values())` (`0` for the empty path, which `GLSA` never
returns). -/
def pathMaxMult (p : List Node) : Nat :=
  (p.map (fun n => p.count n)).foldr max 0

/-- Modelled from the spec: `max(path_elems, key=path_elems.get)` — the
first node, in first-occurrence order, whose multiplicity attains the
maximum. -/
def nodeMaxMult (p : List Node) : Node :=
  ((p.foldl (fun acc n => if n ∈ acc then acc else acc ++ [n]) []).find?
    (fun n => decide (p.count n = pathMaxMult p))).getD 0

/-- The `while not DLA_done` loop of `GSSA` (ESPPRC.py lines 266-284),
with explicit current node-resource set `S` (initially `[]`). -/
def GSSAgo (G : Graph) (source target : Node) (max_res : List ℤ)
    (rmin : RMin) (glsaFuel : Nat) :
    Nat → List Node → Except PyErr (List Node × Label)
  | 0, _ => .error .outOfFuel
  | fuel + 1, S =>
    match GLSA G S source target max_res rmin glsaFuel with
    | .error e => .error e
    | .ok pl =>
      if pathMaxMult pl.1 = 1 then .ok pl
      else GSSAgo G source target max_res rmin glsaFuel fuel
        (S ++ [nodeMaxMult pl.1])

/-- `GSSA(G, source, target, max_res, res_min)` (ESPPRC.py lines
258-286): repeatedly run `GLSA`, returning its result once the path is
elementary, otherwise appending the most repeated node to `S`. -/
def GSSA (G : Graph) (source target : Node) (max_res : List ℤ)
    (rmin : RMin) (glsaFuel fuel : Nat) : Except PyErr (List Node × Label) :=
  GSSAgo G source target max_res rmin glsaFuel fuel []

/-! ## Preprocessing (`preprocess_ESPPRC`, ESPPRC.py lines 38-93)

`nx.single_source_dijkstra_path_length(·, src, cutoff, weight)` returns
the dict of shortest-path distances `<= cutoff` from `src`. We compute
those distances by iterated edge relaxation (`nodes.length` rounds),
which yields the same distances as Dijkstra on the non-negative edge
weights the algorithm runs on, and then keep the entries within the
cutoff. The `weight = _res_cost_i` callback with the global
`resource_treated = res` is modelled by taking component `res` of each
edge's `res_cost`. -/

/-- The edge list weighted by resource `res` (`_res_cost_i`, lines
302-305, with the global `resource_treated` passed explicitly). -/
def resEdges (G : Graph) (res : Nat) : List (Node × Node × ℤ) :=
  G.edges.map (fun e => (e.1, e.2.1, e.2.2.res_cost.getD res 0))

/-- The same weighted edges on `G.reverse(copy=True)`. -/
def revResEdges (G : Graph) (res : Nat) : List (Node × Node × ℤ) :=
  G.edges.map (fun e => (e.2.1, e.1, e.2.2.res_cost.getD res 0))

/-- One relaxation round over every edge, on a distance dict. -/
def relaxRound (edges : List (Node × Node × ℤ))
    (d : List (Node × ℤ)) : List (Node × ℤ) :=
  edges.foldl
    (fun d e =>
      match lookupA d e.1 with
      | none => d
      | some du =>
        match lookupA d e.2.1 with
        | none => d ++ [(e.2.1, du + e.2.2)]
        | some dv => if du + e.2.2 < dv then updateA d e.2.1 (du + e.2.2) else d)
    d

/-- Shortest-path distance dict from `src` after `rounds` relaxation
rounds (with `rounds = |nodes|` and non-negative weights this is the
Dijkstra distance dict). -/
def spLengths (edges : List (Node × Node × ℤ)) (src : Node) :
    Nat → List (Node × ℤ)
  | 0 => [(src, 0)]
  | rounds + 1 => relaxRound edges (spLengths edges src rounds)

/-- The node set returned by `single_source_dijkstra_path_length` with a
cutoff: the Dijkstra source `src` itself is always a key of the returned
dict (networkx records `dist[source] = 0` before any pruning; the cutoff
prunes only edge relaxations), and every other node is kept iff its
distance is within the cutoff. -/
def reachWithin (edges : List (Node × Node × ℤ)) (src : Node)
    (rounds : Nat) (cutoff : ℤ) : List Node :=
  ((spLengths edges src rounds).filter
    (fun p => decide (p.1 = src) || decide (p.2 ≤ cutoff))).map
    (fun p => p.1)

/-- The per-resource reduction loop (ESPPRC.py lines 50-64). The source
writes `reachable_nodes.append(source)` / `...append(target)` when the
intersection lost them — but `reachable_nodes` is a Python `set`, which
has no `append`, so those branches raise AttributeError. (The `source`
branch can in fact never fire first: the backward set omits `source`
exactly when the forward set of the same resource omitted `target`, so
the `target` branch is reached first.) -/
def ppGo (G : Graph) (source target : Node) (max_res : List ℤ) :
    List Nat → List Node → Except PyErr (List Node)
  | [], reach => .ok reach
  | r :: rs, reach =>
    let fwd := reachWithin (resEdges G r) source G.nodes.length (max_res.getD r 0)
    let reach1 := reach.filter (fun n => decide (n ∈ fwd))
    if source ∈ reach1 then
      let bwd := reachWithin (revResEdges G r) target G.nodes.length (max_res.getD r 0)
      let reach2 := reach1.filter (fun n => decide (n ∈ bwd))
      if target ∈ reach2 then ppGo G source target max_res rs reach2
      else .error .attributeError
    else .error .attributeError

/-- The surviving ("reachable") node set computed by the first half of
`preprocess_ESPPRC` (ESPPRC.py lines 44-64). -/
def preprocessReach (G : Graph) (source target : Node) (max_res : List ℤ) :
    Except PyErr (List Node) :=
  ppGo G source target max_res (List.range G.n_res) G.nodes

/-- The reduced graph `H`: a plain node list plus edge list, as built by
`nx.DiGraph` and `add_edge` (which inserts both endpoints). -/
structure SubG where
  nodes : List Node
  edges : List (Node × Node × EdgeData)
  deriving DecidableEq

/-- `H.has_edge(u, v)`. -/
def hasEdgeH (H : SubG) (u v : Node) : Bool :=
  H.edges.any (fun e => decide (e.1 = u) && decide (e.2.1 = v))

/-- Node insertion as performed by `nx.DiGraph.add_edge`. -/
def addNodeH (H : SubG) (u : Node) : SubG :=
  if u ∈ H.nodes then H else { H with nodes := H.nodes ++ [u] }

/-- `H.add_edge(u, v, weight=..., res_cost=...)`: inserts both endpoints
as nodes, then the edge. -/
def addEdgeH (H : SubG) (u v : Node) (ed : EdgeData) : SubG :=
  let H1 := addNodeH (addNodeH H u) v
  { H1 with edges := H1.edges ++ [(u, v, ed)] }

/-- The double loop building `H` (ESPPRC.py lines 72-78), iterating over
ordered pairs of surviving nodes: when `G` has the edge and `H` does not
have it yet, it is added with the original `weight` and `res_cost`. -/
def buildHGo (G : Graph) : List (Node × Node) → SubG → SubG
  | [], H => H
  | p :: ps, H =>
    buildHGo G ps
      (match findEdge G p.1 p.2 with
       | some ed => if hasEdgeH H p.1 p.2 then H else addEdgeH H p.1 p.2 ed
       | none => H)

/-- The reduced graph `H` built from the surviving node set. -/
def buildH (G : Graph) (reach : List Node) : SubG :=
  buildHGo G (reach.flatMap (fun u => reach.map (fun v => (u, v)))) ⟨[], []⟩

/-- `preprocess_ESPPRC(G, source, target, max_res)` (ESPPRC.py lines
38-93), restricted to the parts the claims are about: the surviving node
set and the reduced graph `H` (the `res_min` tables of lines 84-88 are
all-pairs runs of the same shortest-path computation on `H`). -/
def preprocess_ESPPRC (G : Graph) (source target : Node)
    (max_res : List ℤ) : Except PyErr (List Node × SubG) :=
  (preprocessReach G source target max_res).map (fun r => (r, buildH G r))

/-- Strict lexicographic order on resource vectors, used to state the
lexicographic-minimality property of the label selection (claim C4). -/
def lexLtB : List ℤ → List ℤ → Bool
  | [], [] => false
  | [], _ :: _ => true
  | _ :: _, [] => false
  | a :: xs, b :: ys =>
    if a < b then true else if a = b then lexLtB xs ys else false

/-- The states of one `GLSA` invocation: the initial state and everything
reached from it by successful iterations of the `while L` loop. -/
inductive Reach (G : Graph) (S : List Node) (source target : Node)
    (max_res : List ℤ) (rmin : RMin) : GState → Prop
  | base : Reach G S source target max_res rmin (initState G S source)
  | step {st st' : GState} : Reach G S source target max_res rmin st →
      glsaStep G S source target max_res rmin st = .ok st' →
      Reach G S source target max_res rmin st'

/-- Every stored label keeps its first `n_res` resource entries within
the budget `max_res`. -/
def InvPhys (n_res : Nat) (max_res : List ℤ) (st : GState) : Prop :=
  ∀ v : Node, ∀ x ∈ labelsOf st v, ∀ r : Nat, r < n_res →
    x.1.2.getD r 0 ≤ max_res.getD r 0

/-- No label stored at a node dominates another label stored at the same
node. -/
def InvDom (st : GState) : Prop :=
  ∀ v : Node, (labelsOf st v).Pairwise
    (fun x y => is_dominated x.1 y.1 = false ∧ is_dominated y.1 x.1 = false)

/-! ## Concrete instances used in witnesses and counterexamples -/

/-- A bound table that is identically `0`. -/
def rminZero : RMin := fun _ _ _ => some 0

/-- A bound table with no entries at all. -/
def rminEmpty : RMin := fun _ _ _ => none

/-- Two nodes with one edge `0 -> 1` of weight 1 and resource cost `[1]`. -/
def G01 : Graph := ⟨1, [0, 1], [(0, 1, ⟨1, [1]⟩)]⟩

/-- Two nodes and no edges at all. -/
def GnoEdge : Graph := ⟨1, [0, 1], []⟩

/-- Two nodes with edges `0 -> 1` and `1 -> 0` (an edge into the source). -/
def Gcyc : Graph := ⟨1, [0, 1], [(0, 1, ⟨1, [1]⟩), (1, 0, ⟨1, [1]⟩)]⟩

/-- A pending set holding two labels with resource vectors `[5]` (listed
first) and `[3]`. -/
def stSel : GState :=
  ⟨[(0, [((0, [5]), [0])]), (1, [((0, [3]), [1])])], [(0, 0), (1, 0)]⟩

/-- The state of a `GLSA` run on `Gcyc` after the first iteration: the
pending label sits at node 1, whose successor is the source. -/
def stCyc : GState :=
  ⟨[(0, [((0, [0]), [0])]), (1, [((1, [1]), [0, 1])])], [(1, 0)]⟩

/-- A bound table whose only nonzero entry is `5` from node 3 to node 2
(self-distances are `0`, as an all-pairs shortest-path table has). -/
def rminC5 : RMin := fun _ a b => if a = 3 ∧ b = 2 then some 5 else some 0

/-- A 7-node graph with 2 resources in which nodes 0, 3 and 6 survive
preprocessing (each by a different per-resource path) but no edge joins
two surviving nodes, so the reduced graph built from edges is empty. -/
def G7 : Graph := ⟨2, [0, 1, 2, 3, 4, 5, 6],
  [(0, 1, ⟨1, [0, 100]⟩), (1, 3, ⟨1, [0, 0]⟩),
   (0, 2, ⟨1, [100, 0]⟩), (2, 3, ⟨1, [0, 0]⟩),
   (3, 4, ⟨1, [0, 0]⟩), (4, 6, ⟨1, [0, 100]⟩),
   (3, 5, ⟨1, [0, 0]⟩), (5, 6, ⟨1, [100, 0]⟩)]⟩

/-! ## Association list and vector lemmas -/

theorem lookupA_updateA_self {α : Type} (m : List (Node × α)) (k : Node) (v : α) :
    lookupA (updateA m k v) k = some v := by
  induction m with
  | nil => simp [updateA, lookupA]
  | cons p ps ih =>
    by_cases h : p.1 = k
    · simp [updateA, lookupA, h]
    · simp [updateA, lookupA, h, ih]

theorem lookupA_updateA_ne {α : Type} (m : List (Node × α)) (k k' : Node) (v : α)
    (h : k' ≠ k) : lookupA (updateA m k v) k' = lookupA m k' := by
  induction m with
  | nil => simp [updateA, lookupA, Ne.symm h]
  | cons p ps ih =>
    by_cases hp : p.1 = k
    · simp [updateA, lookupA, hp, Ne.symm h]
    · by_cases hp' : p.1 = k'
      · simp [updateA, lookupA, hp, hp', h]
      · simp [updateA, lookupA, hp, hp', ih]

theorem getD_replicate_zero : ∀ (k r : Nat), (List.replicate k (0 : ℤ)).getD r 0 = 0 := by
  intro k r
  rw [List.getD_eq_getElem?_getD, List.getElem?_replicate]
  by_cases h : r < k <;> simp [h]

theorem getD_set_ne (l : List ℤ) (i j : Nat) (a : ℤ) (h : i ≠ j) :
    (l.set i a).getD j 0 = l.getD j 0 := by
  rw [List.getD_eq_getElem?_getD, List.getD_eq_getElem?_getD,
    List.getElem?_set_ne h]

/-! ## The dominance relation is a strict partial order -/

theorem eqVec_refl (x : List ℤ) : eqVec x x = true := by
  induction x with
  | nil => rfl
  | cons a xs ih => simpa [eqVec, List.zip_cons_cons] using ih

theorem eqVec_eq_true_zip (x y : List ℤ) :
    eqVec x y = true ↔ ∀ p ∈ x.zip y, p.1 = p.2 := by
  unfold eqVec
  rw [List.all_eq_true]
  simp

theorem zip_eq_of_ptEq : ∀ (x y : List ℤ), x.length = y.length →
    (∀ p ∈ x.zip y, p.1 = p.2) → x = y
  | [], [], _, _ => rfl
  | [], _ :: _, h, _ => by simp at h
  | _ :: _, [], h, _ => by simp at h
  | a :: xs, b :: ys, h, hall => by
    have h1 : a = b := hall (a, b) (by simp [List.zip_cons_cons])
    have h2 := zip_eq_of_ptEq xs ys (by simpa using h)
      (fun p hp => hall p (by simp [List.zip_cons_cons, hp]))
    rw [h1, h2]

theorem eqVec_eq_true_iff (x y : List ℤ) (h : x.length = y.length) :
    eqVec x y = true ↔ x = y := by
  rw [eqVec_eq_true_zip]
  constructor
  · exact zip_eq_of_ptEq x y h
  · rintro rfl p hp
    exact (eqVec_eq_true_zip x x).mp (eqVec_refl x) p hp

theorem anyLt_eq_false_iff (x y : List ℤ) :
    anyLt x y = false ↔ ∀ p ∈ x.zip y, p.2 ≤ p.1 := by
  unfold anyLt
  rw [List.any_eq_false]
  constructor
  · intro h p hp
    have := h p hp
    simpa [not_lt] using this
  · intro h p hp
    simpa [not_lt] using h p hp

theorem ptGe_antisymm : ∀ (x y : List ℤ), x.length = y.length →
    (∀ p ∈ x.zip y, p.2 ≤ p.1) → (∀ p ∈ y.zip x, p.2 ≤ p.1) → x = y
  | [], [], _, _, _ => rfl
  | [], _ :: _, h, _, _ => by simp at h
  | _ :: _, [], h, _, _ => by simp at h
  | a :: xs, b :: ys, h, hxy, hyx => by
    have h1 : b ≤ a := hxy (a, b) (by simp [List.zip_cons_cons])
    have h2 : a ≤ b := hyx (b, a) (by simp [List.zip_cons_cons])
    have hab : a = b := le_antisymm h2 h1
    have ih := ptGe_antisymm xs ys (by simpa using h)
      (fun p hp => hxy p (by simp [List.zip_cons_cons, hp]))
      (fun p hp => hyx p (by simp [List.zip_cons_cons, hp]))
    rw [hab, ih]

theorem ptGe_trans : ∀ (x y z : List ℤ), x.length = y.length →
    y.length = z.length → (∀ p ∈ x.zip y, p.2 ≤ p.1) →
    (∀ p ∈ y.zip z, p.2 ≤ p.1) → ∀ p ∈ x.zip z, p.2 ≤ p.1
  | [], [], [], _, _, _, _ => by simp
  | [], _ :: _, _, h, _, _, _ => by simp at h
  | _ :: _, [], _, h, _, _, _ => by simp at h
  | _ :: _, _ :: _, [], _, h, _, _ => by simp at h
  | a :: xs, b :: ys, c :: zs, h1, h2, hxy, hyz => by
    intro p hp
    rw [List.zip_cons_cons] at hp
    rcases List.mem_cons.mp hp with hp | hp
    · have g1 : b ≤ a := hxy (a, b) (by simp [List.zip_cons_cons])
      have g2 : c ≤ b := hyz (b, c) (by simp [List.zip_cons_cons])
      rw [hp]
      exact le_trans g2 g1
    · exact ptGe_trans xs ys zs (by simpa using h1) (by simpa using h2)
        (fun q hq => hxy q (by simp [List.zip_cons_cons, hq]))
        (fun q hq => hyz q (by simp [List.zip_cons_cons, hq])) p hp

theorem is_dominated_eq_true_iff (a b : Label) :
    is_dominated a b = true ↔
      ¬(a.1 = b.1 ∧ eqVec a.2 b.2 = true) ∧ b.1 ≤ a.1 ∧
        (∀ p ∈ a.2.zip b.2, p.2 ≤ p.1) := by
  unfold is_dominated
  by_cases h1 : a.1 = b.1 <;> by_cases h2 : eqVec a.2 b.2 = true
  · simp [h1, h2]
  · rw [if_neg (by simp [h2])]
    simp [h1, h2, not_lt, anyLt_eq_false_iff, Bool.not_eq_true]
  · rw [if_neg (by simp [h1])]
    simp [h1, h2, not_lt, anyLt_eq_false_iff, Bool.not_eq_true]
  · rw [if_neg (by simp [h1])]
    simp [h1, h2, not_lt, anyLt_eq_false_iff, Bool.not_eq_true]

theorem dom_irrefl (a : Label) : is_dominated a a = false := by
  unfold is_dominated
  simp [eqVec_refl]

theorem dom_asymm (a b : Label) (h : a.2.length = b.2.length) :
    ¬(is_dominated a b = true ∧ is_dominated b a = true) := by
  rintro ⟨hab, hba⟩
  rw [is_dominated_eq_true_iff] at hab hba
  have hc : a.1 = b.1 := le_antisymm hba.2.1 hab.2.1
  have hv : a.2 = b.2 := ptGe_antisymm a.2 b.2 h hab.2.2 hba.2.2
  exact hab.1 ⟨hc, by rw [hv]; exact eqVec_refl b.2⟩

theorem dom_trans (a b c : Label) (hab : a.2.length = b.2.length)
    (hbc : b.2.length = c.2.length) (h1 : is_dominated a b = true)
    (h2 : is_dominated b c = true) : is_dominated a c = true := by
  rw [is_dominated_eq_true_iff] at h1 h2 ⊢
  refine ⟨?_, le_trans h2.2.1 h1.2.1, ptGe_trans a.2 b.2 c.2 hab hbc h1.2.2 h2.2.2⟩
  rintro ⟨hcost, hv⟩
  have hvac : a.2 = c.2 := (eqVec_eq_true_iff a.2 c.2 (hab.trans hbc)).mp hv
  have hcostab : a.1 = b.1 := by
    have hab' : a.1 ≤ b.1 := by rw [hcost]; exact h2.2.1
    exact le_antisymm hab' h1.2.1
  have h2' : ∀ p ∈ b.2.zip a.2, p.2 ≤ p.1 := by
    rw [hvac]
    exact h2.2.2
  have hvab : a.2 = b.2 := ptGe_antisymm a.2 b.2 hab h1.2.2 h2'
  exact h1.1 ⟨hcostab, by rw [hvab]; exact eqVec_refl b.2⟩

/-! ## Strong dominance tightening lemmas -/

theorem tightenStep_getD_lt (n_res : Nat) (S : List Node) (rmin : RMin)
    (max_res : List ℤ) (acc : List ℤ) (n : Node) (r : Nat) (hr : r < n_res) :
    (tightenStep n_res S rmin max_res acc n).getD r 0 = acc.getD r 0 := by
  unfold tightenStep
  split
  · exact getD_set_ne _ _ _ _ (by omega)
  · rfl

theorem foldl_tighten_getD_lt (n_res : Nat) (S : List Node) (rmin : RMin)
    (max_res : List ℤ) (r : Nat) (hr : r < n_res) :
    ∀ (T : List Node) (l : List ℤ),
      (T.foldl (tightenStep n_res S rmin max_res) l).getD r 0 = l.getD r 0
  | [], l => rfl
  | n :: ns, l => by
    rw [List.foldl_cons,
      foldl_tighten_getD_lt n_res S rmin max_res r hr ns _,
      tightenStep_getD_lt n_res S rmin max_res l n r hr]

theorem strongTighten_getD_lt (n_res : Nat) (S : List Node) (rmin : RMin)
    (max_res : List ℤ) (l : List ℤ) (r : Nat) (hr : r < n_res) :
    (strongTighten n_res S rmin max_res l).getD r 0 = l.getD r 0 :=
  foldl_tighten_getD_lt n_res S rmin max_res r hr S l

theorem tightenStep_noop (n_res : Nat) (S : List Node) (rmin : RMin)
    (max_res : List ℤ) (acc : List ℤ) (n : Node)
    (hself : ∀ r m, rminGet rmin r m m = 0)
    (hbnd : ∀ r, r < n_res → acc.getD r 0 ≤ max_res.getD r 0) :
    tightenStep n_res S rmin max_res acc n = acc := by
  unfold tightenStep
  rw [if_neg]
  intro hcond
  have hany := (Bool.and_eq_true _ _).mp hcond |>.1
  obtain ⟨r, hr, hlt⟩ := List.any_eq_true.mp hany
  have hr' : r < n_res := List.mem_range.mp hr
  have : acc.getD r 0 + rminGet rmin r n n > max_res.getD r 0 := of_decide_eq_true hlt
  rw [hself r n] at this
  have := hbnd r hr'
  linarith

theorem strongTighten_noop (n_res : Nat) (S : List Node) (rmin : RMin)
    (max_res : List ℤ) (l : List ℤ)
    (hself : ∀ r m, rminGet rmin r m m = 0)
    (hbnd : ∀ r, r < n_res → l.getD r 0 ≤ max_res.getD r 0) :
    strongTighten n_res S rmin max_res l = l := by
  unfold strongTighten
  have : ∀ T : List Node, T.foldl (tightenStep n_res S rmin max_res) l = l := by
    intro T
    induction T with
    | nil => rfl
    | cons n ns ih =>
      rw [List.foldl_cons, tightenStep_noop n_res S rmin max_res l n hself hbnd, ih]
  exact this S

/-! ## Feasibility check lemma -/

theorem feasCheck_le (n_res : Nat) (target : Node) (max_res : List ℤ)
    (rmin : RMin) (v : Node) (l : List ℤ)
    (h : feasCheck n_res target max_res rmin v l = true)
    (hrm : ∀ r w t, 0 ≤ rminGet rmin r w t) :
    ∀ r, r < n_res → l.getD r 0 ≤ max_res.getD r 0 := by
  intro r hr
  have hmem := List.all_eq_true.mp h r (List.mem_range.mpr hr)
  have h' : l.getD r 0 + rminGet rmin r v target ≤ max_res.getD r 0 :=
    of_decide_eq_true hmem
  have := hrm r v target
  linarith

/-! ## Removal loop lemma -/

theorem removeDomAux_fst (vl : Label) (v : Node) :
    ∀ (ls : List (Label × List Node)) (i : Nat) (L : List (Node × Nat)),
      (removeDomAux vl v ls i L).1 =
        ls.filter (fun x => !(is_dominated x.1 vl))
  | [], _, _ => rfl
  | x :: rest, i, L => by
    unfold removeDomAux
    by_cases hd : is_dominated x.1 vl
    · rw [if_pos hd]
      rw [removeDomAux_fst vl v rest i _]
      simp [List.filter_cons, hd]
    · have hd' : is_dominated x.1 vl = false := by
        cases h : is_dominated x.1 vl with
        | true => exact absurd h hd
        | false => rfl
      rw [if_neg (by simp [hd'])]
      simp only []
      rw [removeDomAux_fst vl v rest (i + 1) L]
      simp [List.filter_cons, hd']

/-! ## State update lemmas -/

theorem labelsOf_update (st : GState) (v : Node)
    (nl : List (Label × List Node)) (L' : List (Node × Nat)) (w : Node) :
    labelsOf ⟨updateA st.entries v nl, L'⟩ w =
      if w = v then nl else labelsOf st w := by
  unfold labelsOf
  by_cases hw : w = v
  · subst hw
    rw [lookupA_updateA_self]
    simp
  · rw [lookupA_updateA_ne _ _ _ _ hw, if_neg hw]

/-! ## Preservation of the physical-budget invariant -/

theorem relaxEdge_invPhys (n_res : Nat) (S : List Node) (source target : Node)
    (max_res : List ℤ) (rmin : RMin) (uLab : Label) (uPath : List Node)
    (v : Node) (ed : EdgeData) (st st' : GState)
    (hrm : ∀ r w t, 0 ≤ rminGet rmin r w t)
    (h : InvPhys n_res max_res st)
    (hok : relaxEdge n_res S source target max_res rmin uLab uPath v ed st = .ok st') :
    InvPhys n_res max_res st' := by
  simp only [relaxEdge] at hok
  split at hok
  · simp at hok
  · split at hok
    · rename_i hcheck
      split at hok
      · cases hok
        exact h
      · cases hok
        intro w x hx r hr
        rw [labelsOf_update] at hx
        by_cases hw : w = v
        · rw [if_pos hw] at hx
          rcases List.mem_append.mp hx with hx | hx
          · rw [removeDomAux_fst] at hx
            exact h v x (List.mem_filter.mp hx).1 r hr
          · have hx' := List.mem_singleton.mp hx
            rw [hx']
            simp only
            rw [strongTighten_getD_lt _ _ _ _ _ r hr]
            have hfeas := ((Bool.and_eq_true _ _).mp hcheck).1
            exact feasCheck_le _ _ _ _ _ _ hfeas hrm r hr
        · rw [if_neg hw] at hx
          exact h w x hx r hr
    · cases hok
      exact h

theorem relaxAll_invPhys (n_res : Nat) (S : List Node) (source target : Node)
    (max_res : List ℤ) (rmin : RMin) (uLab : Label) (uPath : List Node)
    (hrm : ∀ r w t, 0 ≤ rminGet rmin r w t) :
    ∀ (es : List (Node × EdgeData)) (st st' : GState),
      InvPhys n_res max_res st →
      relaxAll n_res S source target max_res rmin uLab uPath es st = .ok st' →
      InvPhys n_res max_res st'
  | [], st, st', h, hok => by
    cases hok
    exact h
  | (v, ed) :: rest, st, st', h, hok => by
    unfold relaxAll at hok
    cases heq : relaxEdge n_res S source target max_res rmin uLab uPath v ed st with
    | error e => rw [heq] at hok; simp at hok
    | ok st1 =>
      rw [heq] at hok
      exact relaxAll_invPhys n_res S source target max_res rmin uLab uPath hrm
        rest st1 st'
        (relaxEdge_invPhys n_res S source target max_res rmin uLab uPath v ed
          st st1 hrm h heq) hok

theorem glsaStep_invPhys (G : Graph) (S : List Node) (source target : Node)
    (max_res : List ℤ) (rmin : RMin) (st st' : GState)
    (hrm : ∀ r w t, 0 ≤ rminGet rmin r w t)
    (h : InvPhys G.n_res max_res st)
    (hok : glsaStep G S source target max_res rmin st = .ok st') :
    InvPhys G.n_res max_res st' := by
  simp only [glsaStep] at hok
  have h' : InvPhys G.n_res max_res
      ⟨st.entries, st.L.erase (selectLML (labelRes st) (G.n_res + S.length) st.L)⟩ := h
  exact relaxAll_invPhys G.n_res S source target max_res rmin _ _ hrm _ _ _ h' hok

theorem initState_invPhys (G : Graph) (S : List Node) (source : Node)
    (max_res : List ℤ) (hmr : ∀ r, r < G.n_res → 0 ≤ max_res.getD r 0) :
    InvPhys G.n_res max_res (initState G S source) := by
  intro v x hx r hr
  unfold initState labelsOf lookupA at hx
  by_cases hv : source = v
  · rw [if_pos hv] at hx
    have := List.mem_singleton.mp hx
    rw [this]
    simp only
    rw [getD_replicate_zero]
    exact hmr r hr
  · rw [if_neg hv] at hx
    simp [lookupA] at hx

theorem reach_invPhys (G : Graph) (S : List Node) (source target : Node)
    (max_res : List ℤ) (rmin : RMin) (st : GState)
    (hmr : ∀ r, r < G.n_res → 0 ≤ max_res.getD r 0)
    (hrm : ∀ r w t, 0 ≤ rminGet rmin r w t)
    (h : Reach G S source target max_res rmin st) :
    InvPhys G.n_res max_res st := by
  induction h with
  | base => exact initState_invPhys G S source max_res hmr
  | step _ hok ih =>
    exact glsaStep_invPhys G S source target max_res rmin _ _ hrm ih hok

theorem glsaLoop_reach (G : Graph) (S : List Node) (source target : Node)
    (max_res : List ℤ) (rmin : RMin) :
    ∀ (fuel : Nat) (st st' : GState),
      Reach G S source target max_res rmin st →
      glsaLoop G S source target max_res rmin fuel st = .ok st' →
      Reach G S source target max_res rmin st'
  | 0, st, st', _, hok => by simp [glsaLoop] at hok
  | fuel + 1, st, st', h, hok => by
    unfold glsaLoop at hok
    split at hok
    · cases hok
      exact h
    · cases heq : glsaStep G S source target max_res rmin st with
      | error e => rw [heq] at hok; simp at hok
      | ok st1 =>
        rw [heq] at hok
        exact glsaLoop_reach G S source target max_res rmin fuel st1 st'
          (Reach.step h heq) hok

/-! ## The final scan over the labels at the target -/

theorem bestFold_mem :
    ∀ (xs : List (Label × List Node)) (acc : Label × List Node),
      xs.foldl (fun a y => if y.1.1 < a.1.1 then y else a) acc ∈ acc :: xs
  | [], acc => by simp
  | y :: ys, acc => by
    rw [List.foldl_cons]
    have ih := bestFold_mem ys (if y.1.1 < acc.1.1 then y else acc)
    rcases List.mem_cons.mp ih with hm | hm
    · rw [hm]
      split
      · exact List.mem_cons_of_mem _ (List.mem_cons_self _ _)
      · exact List.mem_cons_self _ _
    · exact List.mem_cons_of_mem _ (List.mem_cons_of_mem _ hm)

theorem bestAtTarget_mem (ls : List (Label × List Node)) (x : Label × List Node)
    (h : bestAtTarget ls = some x) : x ∈ ls := by
  cases ls with
  | nil => simp [bestAtTarget] at h
  | cons a as =>
    unfold bestAtTarget at h
    have hx := Option.some.inj h
    rw [← hx]
    exact bestFold_mem as a

theorem GLSA_ok_mem (G : Graph) (S : List Node) (source target : Node)
    (max_res : List ℤ) (rmin : RMin) (fuel : Nat) (p : List Node) (lab : Label)
    (h : GLSA G S source target max_res rmin fuel = .ok (p, lab)) :
    ∃ st : GState, Reach G S source target max_res rmin st ∧
      (lab, p) ∈ labelsOf st target := by
  unfold GLSA at h
  cases hloop : glsaLoop G S source target max_res rmin fuel (initState G S source) with
  | error e => rw [hloop] at h; simp at h
  | ok st =>
    rw [hloop] at h
    have h1 : (match lookupA st.entries target with
        | none => (Except.error PyErr.keyError : Except PyErr (List Node × Label))
        | some ls =>
          match bestAtTarget ls with
          | none => Except.error PyErr.nameError
          | some x => Except.ok (x.2, x.1)) = Except.ok (p, lab) := h
    refine ⟨st, glsaLoop_reach G S source target max_res rmin fuel _ st Reach.base hloop, ?_⟩
    cases hlk : lookupA st.entries target with
    | none => rw [hlk] at h1; simp at h1
    | some ls =>
      rw [hlk] at h1
      have h2 : (match bestAtTarget ls with
          | none => (Except.error PyErr.nameError : Except PyErr (List Node × Label))
          | some x => Except.ok (x.2, x.1)) = Except.ok (p, lab) := h1
      cases hbest : bestAtTarget ls with
      | none => rw [hbest] at h2; simp at h2
      | some x =>
        rw [hbest] at h2
        have hx := Except.ok.inj h2
        have hmem := bestAtTarget_mem ls x hbest
        have h3 : x.2 = p := congrArg Prod.fst hx
        have h4 : x.1 = lab := congrArg Prod.snd hx
        have hlp : (lab, p) = x := by
          rw [← h3, ← h4]
        rw [hlp]
        unfold labelsOf
        rw [hlk]
        exact hmem

/-! ## Preservation of the pairwise non-domination invariant -/

theorem relaxEdge_invDom (n_res : Nat) (S : List Node) (source target : Node)
    (max_res : List ℤ) (rmin : RMin) (uLab : Label) (uPath : List Node)
    (v : Node) (ed : EdgeData) (st st' : GState)
    (hrm : ∀ r w t, 0 ≤ rminGet rmin r w t)
    (hself : ∀ r m, rminGet rmin r m m = 0)
    (h : InvDom st)
    (hok : relaxEdge n_res S source target max_res rmin uLab uPath v ed st = .ok st') :
    InvDom st' := by
  simp only [relaxEdge] at hok
  split at hok
  · simp at hok
  · split at hok
    · rename_i hcheck
      split at hok
      · cases hok
        exact h
      · rename_i hdom
        cases hok
        intro w
        rw [labelsOf_update]
        by_cases hw : w = v
        · rw [if_pos hw]
          have hfeas := ((Bool.and_eq_true _ _).mp hcheck).1
          have hbnd := feasCheck_le _ _ _ _ _ _ hfeas hrm
          have hnoop : strongTighten n_res S rmin max_res
              (zipAdd uLab.2 (ed.res_cost ++ sIndicator S v)) =
              zipAdd uLab.2 (ed.res_cost ++ sIndicator S v) :=
            strongTighten_noop _ _ _ _ _ hself hbnd
          rw [removeDomAux_fst, hnoop]
          have hdomf : (labelsOf st v).any
              (fun b => is_dominated (uLab.1 + ed.weight,
                zipAdd uLab.2 (ed.res_cost ++ sIndicator S v)) b.1) = false := by
            cases hb : (labelsOf st v).any
                (fun b => is_dominated (uLab.1 + ed.weight,
                  zipAdd uLab.2 (ed.res_cost ++ sIndicator S v)) b.1) with
            | true => exact absurd hb hdom
            | false => rfl
          have hall := List.any_eq_false.mp hdomf
          rw [List.pairwise_append]
          refine ⟨List.Pairwise.sublist (List.filter_sublist _) (h v),
            List.pairwise_singleton _ _, ?_⟩
          intro a ha b hb
          have hb' := List.mem_singleton.mp hb
          have hmem := List.mem_filter.mp ha
          constructor
          · rw [hb']
            have := hmem.2
            simpa using this
          · rw [hb']
            have := hall a hmem.1
            simp only at this ⊢
            cases hd : is_dominated (uLab.1 + ed.weight,
                zipAdd uLab.2 (ed.res_cost ++ sIndicator S v)) a.1 with
            | true => exact absurd hd this
            | false => rfl
        · rw [if_neg hw]
          exact h w
    · cases hok
      exact h

theorem relaxAll_invDom (n_res : Nat) (S : List Node) (source target : Node)
    (max_res : List ℤ) (rmin : RMin) (uLab : Label) (uPath : List Node)
    (hrm : ∀ r w t, 0 ≤ rminGet rmin r w t)
    (hself : ∀ r m, rminGet rmin r m m = 0) :
    ∀ (es : List (Node × EdgeData)) (st st' : GState),
      InvDom st →
      relaxAll n_res S source target max_res rmin uLab uPath es st = .ok st' →
      InvDom st'
  | [], st, st', h, hok => by
    cases hok
    exact h
  | (v, ed) :: rest, st, st', h, hok => by
    unfold relaxAll at hok
    cases heq : relaxEdge n_res S source target max_res rmin uLab uPath v ed st with
    | error e => rw [heq] at hok; simp at hok
    | ok st1 =>
      rw [heq] at hok
      exact relaxAll_invDom n_res S source target max_res rmin uLab uPath hrm hself
        rest st1 st'
        (relaxEdge_invDom n_res S source target max_res rmin uLab uPath v ed
          st st1 hrm hself h heq) hok

theorem glsaStep_invDom (G : Graph) (S : List Node) (source target : Node)
    (max_res : List ℤ) (rmin : RMin) (st st' : GState)
    (hrm : ∀ r w t, 0 ≤ rminGet rmin r w t)
    (hself : ∀ r m, rminGet rmin r m m = 0)
    (h : InvDom st)
    (hok : glsaStep G S source target max_res rmin st = .ok st') :
    InvDom st' := by
  simp only [glsaStep] at hok
  have h' : InvDom
      ⟨st.entries, st.L.erase (selectLML (labelRes st) (G.n_res + S.length) st.L)⟩ := h
  exact relaxAll_invDom G.n_res S source target max_res rmin _ _ hrm hself _ _ _ h' hok

theorem initState_invDom (G : Graph) (S : List Node) (source : Node) :
    InvDom (initState G S source) := by
  intro v
  unfold initState labelsOf lookupA
  by_cases hv : source = v
  · rw [if_pos hv]
    exact List.pairwise_singleton _ _
  · rw [if_neg hv]
    simp [lookupA]

theorem reach_invDom (G : Graph) (S : List Node) (source target : Node)
    (max_res : List ℤ) (rmin : RMin) (st : GState)
    (hrm : ∀ r w t, 0 ≤ rminGet rmin r w t)
    (hself : ∀ r m, rminGet rmin r m m = 0)
    (h : Reach G S source target max_res rmin st) :
    InvDom st := by
  induction h with
  | base => exact initState_invDom G S source
  | step _ hok ih =>
    exact glsaStep_invDom G S source target max_res rmin _ _ hrm hself ih hok

/-! ## Fail-fast on an edge into the source -/

theorem relaxEdge_ne_source_ok (n_res : Nat) (S : List Node)
    (source target : Node) (max_res : List ℤ) (rmin : RMin) (uLab : Label)
    (uPath : List Node) (v : Node) (ed : EdgeData) (st : GState)
    (hv : v ≠ source) :
    ∃ st', relaxEdge n_res S source target max_res rmin uLab uPath v ed st = .ok st' := by
  simp only [relaxEdge]
  rw [if_neg hv]
  split
  · split
    · exact ⟨st, rfl⟩
    · exact ⟨_, rfl⟩
  · exact ⟨st, rfl⟩

theorem relaxEdge_source_err (n_res : Nat) (S : List Node)
    (source target : Node) (max_res : List ℤ) (rmin : RMin) (uLab : Label)
    (uPath : List Node) (ed : EdgeData) (st : GState) :
    relaxEdge n_res S source target max_res rmin uLab uPath source ed st =
      .error .sourceIsChild := by
  simp [relaxEdge]

theorem relaxAll_source_err (n_res : Nat) (S : List Node)
    (source target : Node) (max_res : List ℤ) (rmin : RMin) (uLab : Label)
    (uPath : List Node) :
    ∀ (es : List (Node × EdgeData)) (st : GState),
      (∃ p ∈ es, p.1 = source) →
      relaxAll n_res S source target max_res rmin uLab uPath es st =
        .error .sourceIsChild
  | [], _, h => by simp at h
  | (v, ed) :: rest, st, h => by
    unfold relaxAll
    by_cases hv : v = source
    · subst hv
      rw [relaxEdge_source_err]
    · obtain ⟨q, hq, hqs⟩ := h
      rcases List.mem_cons.mp hq with hq | hq
      · exact absurd (by rw [hq] at hqs; exact hqs) hv
      · obtain ⟨st1, hst1⟩ := relaxEdge_ne_source_ok n_res S source target
          max_res rmin uLab uPath v ed st hv
        rw [hst1]
        exact relaxAll_source_err n_res S source target max_res rmin uLab uPath
          rest st1 ⟨q, hq, hqs⟩

theorem glsaStep_source_err (G : Graph) (S : List Node) (source target : Node)
    (max_res : List ℤ) (rmin : RMin) (st : GState)
    (h : ∃ p ∈ G.succs (selectLML (labelRes st) (G.n_res + S.length) st.L).1,
      p.1 = source) :
    glsaStep G S source target max_res rmin st = .error .sourceIsChild := by
  simp only [glsaStep]
  exact relaxAll_source_err G.n_res S source target max_res rmin _ _ _ _ h

theorem glsaLoop_err_of_step (G : Graph) (S : List Node) (source target : Node)
    (max_res : List ℤ) (rmin : RMin) (fuel : Nat) (st : GState) (e : PyErr)
    (hL : ¬st.L = [])
    (h : glsaStep G S source target max_res rmin st = .error e) :
    glsaLoop G S source target max_res rmin (fuel + 1) st = .error e := by
  unfold glsaLoop
  rw [if_neg hL, h]

/-! ## Elementarity of the path accepted by GSSA -/

theorem le_foldr_max : ∀ (l : List Nat) (a : Nat), a ∈ l → a ≤ l.foldr max 0
  | [], a, h => by simp at h
  | b :: bs, a, h => by
    rcases List.mem_cons.mp h with h | h
    · rw [h, List.foldr_cons]
      exact le_max_left _ _
    · rw [List.foldr_cons]
      exact le_trans (le_foldr_max bs a h) (le_max_right _ _)

theorem pathMaxMult_one_count (p : List Node) (h : pathMaxMult p = 1) :
    ∀ n : Node, p.count n ≤ 1 := by
  intro n
  by_cases hm : n ∈ p
  · have h1 : p.count n ∈ p.map (fun m => p.count m) :=
      List.mem_map_of_mem _ hm
    have h2 := le_foldr_max _ _ h1
    unfold pathMaxMult at h
    omega
  · rw [List.count_eq_zero_of_not_mem hm]
    omega

theorem GSSAgo_elementary (G : Graph) (source target : Node) (max_res : List ℤ)
    (rmin : RMin) (glsaFuel : Nat) :
    ∀ (fuel : Nat) (S : List Node) (p : List Node) (lab : Label),
      GSSAgo G source target max_res rmin glsaFuel fuel S = .ok (p, lab) →
      ∀ n : Node, p.count n ≤ 1
  | 0, S, p, lab, h => by simp [GSSAgo] at h
  | fuel + 1, S, p, lab, h => by
    unfold GSSAgo at h
    cases hg : GLSA G S source target max_res rmin glsaFuel with
    | error e => rw [hg] at h; simp at h
    | ok pl =>
      rw [hg] at h
      have h' : (if pathMaxMult pl.1 = 1 then Except.ok pl
          else GSSAgo G source target max_res rmin glsaFuel fuel
            (S ++ [nodeMaxMult pl.1])) = Except.ok (p, lab) := h
      split at h'
      · rename_i hmult
        have hpl := Except.ok.inj h'
        rw [hpl] at hmult
        exact pathMaxMult_one_count p hmult
      · exact GSSAgo_elementary G source target max_res rmin glsaFuel fuel
          (S ++ [nodeMaxMult pl.1]) p lab h'

/-! ## Characterization of the reduced graph `H` -/

theorem hasEdgeH_iff (H : SubG) (u v : Node) :
    hasEdgeH H u v = true ↔ ∃ ed, (u, v, ed) ∈ H.edges := by
  unfold hasEdgeH
  rw [List.any_eq_true]
  constructor
  · rintro ⟨e, he, hp⟩
    have h1 : e.1 = u := of_decide_eq_true ((Bool.and_eq_true _ _).mp hp).1
    have h2 : e.2.1 = v := of_decide_eq_true ((Bool.and_eq_true _ _).mp hp).2
    refine ⟨e.2.2, ?_⟩
    have : e = (u, v, e.2.2) := by
      rw [← h1, ← h2]
    rw [← this]
    exact he
  · rintro ⟨ed, hmem⟩
    exact ⟨(u, v, ed), hmem, by simp⟩

/-- Edge soundness: every edge of a partially built `H` joins surviving
nodes and carries the original edge data. -/
def EdgeInv (G : Graph) (reach : List Node) (H : SubG) : Prop :=
  ∀ u v ed, (u, v, ed) ∈ H.edges →
    u ∈ reach ∧ v ∈ reach ∧ findEdge G u v = some ed

/-- Node soundness: the nodes of a partially built `H` are exactly the
endpoints of its edges (`nx.DiGraph` gains nodes only via `add_edge`). -/
def NodeInv (H : SubG) : Prop :=
  ∀ n, n ∈ H.nodes ↔ ∃ e ∈ H.edges, n = e.1 ∨ n = e.2.1

theorem mem_addNodeH (H : SubG) (u n : Node) :
    n ∈ (addNodeH H u).nodes ↔ n ∈ H.nodes ∨ n = u := by
  unfold addNodeH
  split
  · rename_i hu
    constructor
    · exact fun h => Or.inl h
    · rintro (h | rfl)
      · exact h
      · exact hu
  · simp

theorem mem_addEdgeH_nodes (H : SubG) (u v n : Node) (ed : EdgeData) :
    n ∈ (addEdgeH H u v ed).nodes ↔ n ∈ H.nodes ∨ n = u ∨ n = v := by
  unfold addEdgeH
  simp only
  rw [mem_addNodeH, mem_addNodeH]
  tauto

theorem addNodeH_edges (H : SubG) (u : Node) :
    (addNodeH H u).edges = H.edges := by
  unfold addNodeH
  split <;> rfl

theorem addEdgeH_edges (H : SubG) (u v : Node) (ed : EdgeData) :
    (addEdgeH H u v ed).edges = H.edges ++ [(u, v, ed)] := by
  unfold addEdgeH
  simp only
  rw [addNodeH_edges, addNodeH_edges]

theorem mem_addEdgeH_new (H : SubG) (u v : Node) (ed : EdgeData) :
    (u, v, ed) ∈ (addEdgeH H u v ed).edges := by
  rw [addEdgeH_edges]
  exact List.mem_append_right _ (List.mem_singleton.mpr rfl)

theorem buildHGo_edgeInv (G : Graph) (reach : List Node) :
    ∀ (ps : List (Node × Node)) (H : SubG),
      (∀ q ∈ ps, q.1 ∈ reach ∧ q.2 ∈ reach) →
      EdgeInv G reach H → EdgeInv G reach (buildHGo G ps H)
  | [], H, _, hinv => hinv
  | p :: ps, H, hps, hinv => by
    unfold buildHGo
    apply buildHGo_edgeInv G reach ps _
      (fun q hq => hps q (List.mem_cons_of_mem _ hq))
    split
    · rename_i ed hf
      split
      · exact hinv
      · intro u v ed' hmem
        rw [addEdgeH_edges] at hmem
        rcases List.mem_append.mp hmem with hmem | hmem
        · exact hinv u v ed' hmem
        · have hq := List.mem_singleton.mp hmem
          have hu : u = p.1 := congrArg (fun t => t.1) hq
          have hv : v = p.2 := congrArg (fun t => t.2.1) hq
          have hed : ed' = ed := congrArg (fun t => t.2.2) hq
          have hp := hps p (List.mem_cons_self _ _)
          rw [hu, hv, hed]
          exact ⟨hp.1, hp.2, hf⟩
    · exact hinv

theorem hasEdgeH_addEdgeH_mono (H : SubG) (a b u v : Node) (ed : EdgeData)
    (h : hasEdgeH H u v = true) : hasEdgeH (addEdgeH H a b ed) u v = true := by
  rw [hasEdgeH_iff] at h ⊢
  obtain ⟨ed', hmem⟩ := h
  refine ⟨ed', ?_⟩
  rw [addEdgeH_edges]
  exact List.mem_append_left _ hmem

theorem buildHGo_hasEdge_mono (G : Graph) :
    ∀ (ps : List (Node × Node)) (H : SubG) (u v : Node),
      hasEdgeH H u v = true → hasEdgeH (buildHGo G ps H) u v = true
  | [], _, _, _, h => h
  | p :: ps, H, u, v, h => by
    unfold buildHGo
    apply buildHGo_hasEdge_mono G ps
    split
    · rename_i ed hf
      split
      · exact h
      · exact hasEdgeH_addEdgeH_mono H p.1 p.2 u v ed h
    · exact h

theorem buildHGo_complete (G : Graph) :
    ∀ (ps : List (Node × Node)) (H : SubG) (q : Node × Node),
      q ∈ ps → (findEdge G q.1 q.2).isSome →
      hasEdgeH (buildHGo G ps H) q.1 q.2 = true
  | [], _, _, hq, _ => by simp at hq
  | p :: ps, H, q, hq, hsome => by
    rcases List.mem_cons.mp hq with hq | hq
    · subst hq
      unfold buildHGo
      apply buildHGo_hasEdge_mono G ps
      split
      · rename_i ed hf
        split
        · rename_i hhas
          exact hhas
        · rw [hasEdgeH_iff]
          exact ⟨ed, mem_addEdgeH_new H q.1 q.2 ed⟩
      · rename_i hf
        rw [hf] at hsome
        simp at hsome
    · unfold buildHGo
      exact buildHGo_complete G ps _ q hq hsome

theorem buildHGo_nodeInv (G : Graph) :
    ∀ (ps : List (Node × Node)) (H : SubG),
      NodeInv H → NodeInv (buildHGo G ps H)
  | [], _, hinv => hinv
  | p :: ps, H, hinv => by
    unfold buildHGo
    apply buildHGo_nodeInv G ps
    split
    · rename_i ed hf
      split
      · exact hinv
      · intro n
        rw [mem_addEdgeH_nodes, addEdgeH_edges, hinv n]
        constructor
        · rintro (⟨e, he, hn⟩ | hn | hn)
          · exact ⟨e, List.mem_append_left _ he, hn⟩
          · exact ⟨(p.1, p.2, ed),
              List.mem_append_right _ (List.mem_singleton.mpr rfl), Or.inl hn⟩
          · exact ⟨(p.1, p.2, ed),
              List.mem_append_right _ (List.mem_singleton.mpr rfl), Or.inr hn⟩
        · rintro ⟨e, he, hn⟩
          rcases List.mem_append.mp he with he | he
          · exact Or.inl ⟨e, he, hn⟩
          · have he' := List.mem_singleton.mp he
            subst he'
            rcases hn with hn | hn
            · exact Or.inr (Or.inl hn)
            · exact Or.inr (Or.inr hn)
    · exact hinv

theorem mem_pairs (reach : List Node) (q : Node × Node) :
    q ∈ reach.flatMap (fun u => reach.map (fun v => (u, v))) ↔
      q.1 ∈ reach ∧ q.2 ∈ reach := by
  rw [List.mem_flatMap]
  constructor
  · rintro ⟨a, ha, hq⟩
    obtain ⟨b, hb, hab⟩ := List.mem_map.mp hq
    rw [← hab]
    exact ⟨ha, hb⟩
  · rintro ⟨h1, h2⟩
    exact ⟨q.1, h1, List.mem_map.mpr ⟨q.2, h2, rfl⟩⟩

theorem buildH_edges_iff (G : Graph) (reach : List Node) (u v : Node)
    (ed : EdgeData) :
    (u, v, ed) ∈ (buildH G reach).edges ↔
      u ∈ reach ∧ v ∈ reach ∧ findEdge G u v = some ed := by
  have hinv : EdgeInv G reach (buildH G reach) := by
    apply buildHGo_edgeInv G reach _ ⟨[], []⟩
    · intro q hq
      exact (mem_pairs reach q).mp hq
    · intro u' v' ed' hmem
      simp at hmem
  constructor
  · exact hinv u v ed
  · rintro ⟨h1, h2, h3⟩
    have hq : ((u, v) : Node × Node) ∈
        reach.flatMap (fun a => reach.map (fun b => (a, b))) :=
      (mem_pairs reach (u, v)).mpr ⟨h1, h2⟩
    have hcomp := buildHGo_complete G _ ⟨[], []⟩ (u, v) hq (by rw [h3]; rfl)
    have := (hasEdgeH_iff _ u v).mp hcomp
    obtain ⟨ed', hmem⟩ := this
    have := hinv u v ed' hmem
    have hed : ed' = ed := by
      have h4 := this.2.2
      rw [h3] at h4
      exact (Option.some.inj h4).symm
    rw [← hed]
    exact hmem

theorem buildH_nodes_iff (G : Graph) (reach : List Node) (n : Node) :
    n ∈ (buildH G reach).nodes ↔
      ∃ e ∈ (buildH G reach).edges, n = e.1 ∨ n = e.2.1 := by
  have hinv : NodeInv (buildH G reach) := by
    apply buildHGo_nodeInv G _ ⟨[], []⟩
    intro m
    simp
  exact hinv n

/-! ## Claim theorems -/

/-- Claim C1: for every graph, source, target, max_res and bound table on
which `GSSA` returns, the returned `best_path` visits no node more than
once — `GSSA` only stops and returns the result of a `GLSA` invocation
when the maximum node multiplicity of that path equals 1. -/
theorem claim_C1 (G : Graph) (source target : Node) (max_res : List ℤ)
    (rmin : RMin) (glsaFuel fuel : Nat) (p : List Node) (lab : Label)
    (h : GSSA G source target max_res rmin glsaFuel fuel = .ok (p, lab)) :
    ∀ n : Node, p.count n ≤ 1 :=
  GSSAgo_elementary G source target max_res rmin glsaFuel fuel [] p lab h

/-- Witness for C1: a concrete `GSSA` run returning the path `[0, 1]`,
on which the theorem yields multiplicity at most 1. -/
theorem claim_C1_witness :
    GSSA G01 0 1 [2] rminZero 3 2 = .ok ([0, 1], (1, [1])) ∧
      ([0, 1] : List Node).count 0 ≤ 1 :=
  ⟨by decide, claim_C1 G01 0 1 [2] rminZero 3 2 [0, 1] (1, [1]) (by decide) 0⟩

/-- Claim C2: assuming non-negative edge resource costs, bound-table
entries and budgets, every label ever stored during one `GLSA` invocation
(hence also the returned `best_label`) keeps its first `n_res` resource
entries within `max_res`, and the feasibility test reads a missing bound
entry as `0` (it never fails because an entry is absent). -/
theorem claim_C2 (G : Graph) (S : List Node) (source target : Node)
    (max_res : List ℤ) (rmin : RMin)
    (_hedge : ∀ e ∈ G.edges, ∀ q ∈ e.2.2.res_cost, 0 ≤ q)
    (hbt : ∀ r w t, 0 ≤ rminGet rmin r w t)
    (hmr : ∀ r, r < G.n_res → 0 ≤ max_res.getD r 0) :
    (∀ st : GState, Reach G S source target max_res rmin st →
      InvPhys G.n_res max_res st) ∧
    (∀ (fuel : Nat) (p : List Node) (lab : Label),
      GLSA G S source target max_res rmin fuel = .ok (p, lab) →
      ∀ r, r < G.n_res → lab.2.getD r 0 ≤ max_res.getD r 0) ∧
    (∀ (r : Nat) (w t : Node), rmin r w t = none → rminGet rmin r w t = 0) := by
  refine ⟨?_, ?_, ?_⟩
  · intro st hr
    exact reach_invPhys G S source target max_res rmin st hmr hbt hr
  · intro fuel p lab h r hrlt
    obtain ⟨st, hreach, hmem⟩ :=
      GLSA_ok_mem G S source target max_res rmin fuel p lab h
    exact reach_invPhys G S source target max_res rmin st hmr hbt hreach
      target _ hmem r hrlt
  · intro r w t h
    unfold rminGet
    rw [h]
    rfl

/-- Witness for C2: a concrete `GLSA` run whose returned label satisfies
the resource bound the theorem asserts. -/
theorem claim_C2_witness :
    GLSA G01 [] 0 1 [2] rminZero 3 = .ok ([0, 1], (1, [1])) ∧
      ((1 : ℤ), [(1 : ℤ)]).2.getD 0 0 ≤ [(2 : ℤ)].getD 0 0 :=
  ⟨by decide,
    (claim_C2 G01 [] 0 1 [2] rminZero (by decide) (fun _ _ _ => le_refl 0)
      (by intro r hr; have h0 : r = 0 := Nat.lt_one_iff.mp hr; subst h0; decide)).2.1
      3 [0, 1] (1, [1]) (by decide) 0 (by decide)⟩

/-- Claim C3 (code bug): when no label ever reaches the target — here a
graph with no edges at all — `GLSA` does not surface a "no feasible path"
result: reading `labels[target]` raises KeyError (ESPPRC.py line 248). -/
theorem claim_C3 : GLSA GnoEdge [] 0 1 [0] rminEmpty 2 = .error .keyError := by
  decide

/-- Claim C4 (code bug): the "lexicographically minimal" selection keeps
every prefix-minimum of the iteration order and returns the first of
them, so with the vectors `[5]` (iterated first) and `[3]` pending it
removes the entry whose vector `[5]` is lexicographically greater. -/
theorem claim_C4 :
    selectLML (labelRes stSel) 1 stSel.L = (0, 0) ∧ (1, 0) ∈ stSel.L ∧
      labelRes stSel (0, 0) 0 = 5 ∧ labelRes stSel (1, 0) 0 = 3 ∧
      lexLtB [(3 : ℤ)] [(5 : ℤ)] = true ∧
      stSel.L.erase (selectLML (labelRes stSel) 1 stSel.L) = [(1, 0)] := by
  decide

/-- Claim C5 (code bug): the strong dominance tightening consults
`res_min[res][n].get(n, 0.0)` — node `n`'s self-distance, `0` in a real
table — instead of the bound from the candidate's node `v` to `n`, so on
a feasible candidate at `v = 3` with `res_min[0][3][2] = 5` the code
leaves the label unchanged while the specified bound would set the
synthetic dimension of `n = 2` to 1. -/
theorem claim_C5 :
    strongTighten 1 [2] rminC5 [1] [1, 0] = [1, 0] ∧
      strongTightenSpec 1 [2] rminC5 [1] 3 [1, 0] = [1, 1] ∧
      feasCheck 1 1 [1] rminC5 3 [1, 0] = true := by
  decide

/-- Claim C6 (code bug): with `max_res = [0]` and a positive-resource
edge, the forward Dijkstra set omits the target, so after intersecting
the backward set `preprocess_ESPPRC` executes
`reachable_nodes.append(target)` on a Python `set`, raising
AttributeError instead of retaining the target and completing. -/
theorem claim_C6 : preprocess_ESPPRC G01 0 1 [0] = .error .attributeError := by
  decide

/-- Counterexample to C7: on `G7` the surviving node set is `[0, 3, 6]`,
but no edge of `G7` joins two surviving nodes, so the returned reduced
graph has an empty node set — it is not the induced subgraph on the
surviving nodes, which would contain the isolated surviving nodes. -/
theorem claim_C7_counterexample :
    preprocess_ESPPRC G7 0 6 [10, 10] = .ok ([0, 3, 6], ⟨[], []⟩) ∧
      (3 : Node) ∈ [0, 3, 6] ∧ ((⟨[], []⟩ : SubG).nodes = []) := by
  decide

/-- Claim C7 as amended: the edge set of the reduced graph `H` is exactly
the original edges whose endpoints both survive, with original
attributes; the node set of `H` is exactly the surviving nodes incident
to at least one such edge (surviving nodes with no edge to another
surviving node are dropped). -/
theorem claim_C7_amended (G : Graph) (source target : Node)
    (max_res : List ℤ) (reach : List Node) (H : SubG)
    (h : preprocess_ESPPRC G source target max_res = .ok (reach, H)) :
    (∀ (u v : Node) (ed : EdgeData),
      (u, v, ed) ∈ H.edges ↔
        u ∈ reach ∧ v ∈ reach ∧ findEdge G u v = some ed) ∧
    (∀ n : Node, n ∈ H.nodes ↔ ∃ e ∈ H.edges, n = e.1 ∨ n = e.2.1) := by
  have hH : H = buildH G reach := by
    unfold preprocess_ESPPRC at h
    cases hp : preprocessReach G source target max_res with
    | error e =>
      rw [hp] at h
      simp [Except.map] at h
    | ok r =>
      rw [hp] at h
      simp only [Except.map] at h
      have hinj := Except.ok.inj h
      have h1 : r = reach := congrArg Prod.fst hinj
      have h2 : buildH G r = H := congrArg Prod.snd hinj
      rw [← h2, h1]
  subst hH
  exact ⟨fun u v ed => buildH_edges_iff G reach u v ed,
    fun n => buildH_nodes_iff G reach n⟩

/-- Witness for the amended C7: the characterization instantiated on the
concrete run over `G7`. -/
theorem claim_C7_witness :
    (0, 1, (⟨1, [0, 100]⟩ : EdgeData)) ∈ (⟨[], []⟩ : SubG).edges ↔
      (0 : Node) ∈ [0, 3, 6] ∧ (1 : Node) ∈ [0, 3, 6] ∧
        findEdge G7 0 1 = some ⟨1, [0, 100]⟩ :=
  (claim_C7_amended G7 0 6 [10, 10] [0, 3, 6] ⟨[], []⟩ (by decide)).1 0 1
    ⟨1, [0, 100]⟩

/-- Claim C8: `_is_dominated` is a strict partial order on labels of
equal dimension — irreflexive, asymmetric and transitive — and, for any
bound table with non-negative entries and zero self-distances (as the
all-pairs tables have), the labels `GLSA` keeps simultaneously at one
node never dominate one another, in any reachable state. -/
theorem claim_C8 (G : Graph) (S : List Node) (source target : Node)
    (max_res : List ℤ) (rmin : RMin)
    (hbt : ∀ r w t, 0 ≤ rminGet rmin r w t)
    (hself : ∀ r m, rminGet rmin r m m = 0) :
    (∀ a : Label, is_dominated a a = false) ∧
    (∀ a b : Label, a.2.length = b.2.length →
      ¬(is_dominated a b = true ∧ is_dominated b a = true)) ∧
    (∀ a b c : Label, a.2.length = b.2.length → b.2.length = c.2.length →
      is_dominated a b = true → is_dominated b c = true →
      is_dominated a c = true) ∧
    (∀ st : GState, Reach G S source target max_res rmin st → InvDom st) :=
  ⟨dom_irrefl, dom_asymm, dom_trans,
    fun st hr => reach_invDom G S source target max_res rmin st hbt hself hr⟩

/-- Witness for C8: irreflexivity instantiated at a concrete label. -/
theorem claim_C8_witness :
    is_dominated ((0 : ℤ), [(0 : ℤ)]) ((0 : ℤ), [(0 : ℤ)]) = false :=
  (claim_C8 G01 [] 0 1 [2] rminZero (fun _ _ _ => le_refl 0)
    (fun _ _ => rfl)).1 ((0 : ℤ), [(0 : ℤ)])

/-- Claim C9: when the node selected for extension has the source among
its successors, the `GLSA` iteration aborts the whole run with the
structural-violation failure (`quit()` after the critical log), instead
of continuing the search. -/
theorem claim_C9 (G : Graph) (S : List Node) (source target : Node)
    (max_res : List ℤ) (rmin : RMin) (st : GState) (fuel : Nat)
    (hL : ¬st.L = [])
    (h : ∃ p ∈ G.succs (selectLML (labelRes st) (G.n_res + S.length) st.L).1,
      p.1 = source) :
    glsaStep G S source target max_res rmin st = .error .sourceIsChild ∧
      glsaLoop G S source target max_res rmin (fuel + 1) st =
        .error .sourceIsChild := by
  have hstep := glsaStep_source_err G S source target max_res rmin st h
  exact ⟨hstep,
    glsaLoop_err_of_step G S source target max_res rmin fuel st _ hL hstep⟩

/-- Witness for C9: on the cyclic graph `Gcyc`, the step from the state
whose pending label sits at node 1 (successor: the source 0) fails with
the structural-violation error. -/
theorem claim_C9_witness :
    glsaStep Gcyc [] 0 1 [2] rminZero stCyc = .error .sourceIsChild :=
  (claim_C9 Gcyc [] 0 1 [2] rminZero stCyc 0 (by decide) (by decide)).1

/-- Claim C10 (implicit): with non-negative bound-table entries and zero
self-distances, the strong dominance tightening leaves every candidate
that passed the feasibility check completely unchanged — its trigger
reduces to a budget violation the feasibility check already excluded. -/
theorem claim_C10 (n_res : Nat) (S : List Node) (target : Node)
    (max_res : List ℤ) (rmin : RMin) (v : Node) (l : List ℤ)
    (hbt : ∀ r w t, 0 ≤ rminGet rmin r w t)
    (hself : ∀ r m, rminGet rmin r m m = 0)
    (hfeas : feasCheck n_res target max_res rmin v l = true) :
    strongTighten n_res S rmin max_res l = l :=
  strongTighten_noop n_res S rmin max_res l hself
    (feasCheck_le n_res target max_res rmin v l hfeas hbt)

/-- Witness for C10: a concrete feasible candidate left unchanged. -/
theorem claim_C10_witness :
    strongTighten 1 [2] rminZero [1] [1, 0] = [1, 0] :=
  claim_C10 1 [2] 1 [1] rminZero 3 [1, 0] (fun _ _ _ => le_refl 0)
    (fun _ _ => rfl) (by decide)
